import Mathlib

/-!
Shallow embedding of the `strings` repository (four exact string-matching
algorithms over a shared Hit / Match result model).  The embedding follows
the converged draft `src/unnamed/part_000`; sequences are lists of
characters, C++ `int` values that can go negative are modelled as `Int`,
`long long` hash arithmetic is modelled as exact `Int` arithmetic (C++
signed overflow is undefined behaviour, so only non-overflowing executions
have defined meaning), and C++ truncating division `/` is `Int.tdiv`.
-/

/-- Sequences of symbols (`std::string`). -/
abbrev Str := List Char

/-- `constexpr int sigma = 128;` — the alphabet size. -/
def sigma : Nat := 128

/-- `constexpr int pk = 257;` — the rolling-hash multiplier. -/
def pk : Int := 257

/-- `constexpr int delim = 0;` — the delimiter symbol `char(0)`. -/
def delim : Char := Char.ofNat 0

/-- Default character handed to `List.getD`; every access the algorithms
perform is in range, so this value never influences a result.  It is a
printable symbol distinct from the delimiter. -/
def dflt : Char := 'A'

/-- Numeric value of a symbol as the C++ code sees it: `char` is a signed
byte, promoted to `int` in arithmetic. -/
def charVal (c : Char) : Int :=
  let b := c.toNat % 256
  if b < 128 then (b : Int) else (b : Int) - 256

/-- `struct Hit { int start; int length; float accuracy; }`.
The `float` accuracy is modelled as a rational; every algorithm in the
repository only ever stores the exact constant `1.0`. -/
structure Hit where
  start : Int
  length : Int
  accuracy : Rat
  deriving DecidableEq, Repr

/-- `class Match` — base, pattern, display indent, the sort flag and the
stored hit list. -/
structure Match where
  base : Str
  pattern : Str
  indent : Int
  sorted : Bool
  hits : List Hit
  deriving DecidableEq, Repr

/-- Postcondition of `std::sort(h.begin(), h.end(), cmp)` with
`cmp a b = a.accuracy > b.accuracy`: the C++ standard guarantees that the
result is a permutation of the input that is sorted with respect to the
comparator (no two consecutive elements are inverted), and nothing more —
in particular `std::sort` is not stable. -/
def cppSortPost (inp out : List Hit) : Prop :=
  out.Perm inp ∧ out.Chain' (fun a b => ¬ (b.accuracy > a.accuracy))

/-- `Match::Match(string b, string p, vector<Hit> h, bool sorted, int indent)`:
copies the sequences, sorts the hit list by descending accuracy when the
flag is set (via `std::sort`, modelled by its standard postcondition) and
stores it unchanged otherwise. -/
def MatchCtor (b p : Str) (h : List Hit) (srt : Bool) (ind : Int) (res : Match) : Prop :=
  res.base = b ∧ res.pattern = p ∧ res.indent = ind ∧ res.sorted = srt ∧
    (if srt then cppSortPost h res.hits else res.hits = h)

/-- `return {base, pattern, hits};` — the construction every algorithm
performs, using the declaration defaults `sorted = false`, `indent = 5`. -/
def Match.make (b p : Str) (h : List Hit) : Match :=
  ⟨b, p, 5, false, h⟩

/-! ## Naive -/

/-- Hit discovery of `Naive`: `for (i = 0; i < n-m; ++i)` record a hit at
`i` whenever `base.substr(i,m) == pattern`. -/
def naiveHits (b p : Str) : List Hit :=
  (List.range (b.length - p.length)).filterMap fun i =>
    if (b.drop i).take p.length = p then some ⟨i, p.length, 1⟩ else none

/-- `Match Naive(const string& base, const string& pattern)`. -/
def Naive (b p : Str) : Match :=
  Match.make b p (naiveHits b p)

/-! ## Rabin-Karp -/

/-- Polynomial hash `Σ value(l[j]) * pk^j`, the value accumulated by the
preparation loop `h = h + l[i] * fmult; fmult = fmult * pk;`. -/
def polyHash : Str → Int
  | [] => 0
  | c :: t => charVal c + pk * polyHash t

/-- One window slide:
`hb = (hb - base[i] + base[i + m] * fmult) / pk;` with `fmult = pk^m`
(C++ `/` on `long long` truncates, hence `Int.tdiv`). -/
def rkSlide (b : Str) (m : Nat) (hb : Int) (i : Nat) : Int :=
  (hb - charVal (b.getD i dflt) + charVal (b.getD (i + m) dflt) * pk ^ m).tdiv pk

/-- Main loop of `RabinKarp`: `k` iterations remain, the current window
starts at `i` and has rolling hash `hb`; a hit is recorded whenever
`hb == hp`, with no character comparison. -/
def rkGo (b : Str) (m : Nat) (hp : Int) (hb : Int) (i k : Nat) : List Hit :=
  match k with
  | 0 => []
  | k + 1 =>
    (if hb = hp then [⟨(i : Int), (m : Int), 1⟩] else []) ++
      rkGo b m hp (rkSlide b m hb i) (i + 1) k

/-- `Match RabinKarp(const string& base, const string& pattern)`. -/
def RabinKarp (b p : Str) : Match :=
  Match.make b p
    (rkGo b p.length (polyHash p) (polyHash (b.take p.length)) 0
      (b.length - p.length))

/-- Hash of the window of length `m` starting at `i`. -/
def windowHash (b : Str) (m i : Nat) : Int :=
  polyHash ((b.drop i).take m)

/-! ## Knuth-Morris-Pratt -/

/-- The fallback loop `while (j > 0 && s[i] != s[j]) { j = prefix[j-1]; }`.
The extra fuel argument only makes termination structural: each executed
step strictly decreases `j` (because the computed table satisfies
`pf[j-1] <= j-1`), so fuel `>= j` always suffices and the loop is exited
by its own guard, never by fuel exhaustion. -/
def fb (s : Str) (pf : List Nat) (i : Nat) : Nat → Nat → Nat
  | j, 0 => j
  | j, fuel + 1 =>
    if 0 < j ∧ s.getD i dflt ≠ s.getD j dflt then
      fb s pf i (pf.getD (j - 1) 0) fuel
    else j

/-- The table-filling loop `for (int i = 1; i < l; ++i) { ... }` of the
composite string's failure function: `pfUpTo s i` is the list
`[pf 0, pf 1, ..., pf i]` (the vector is zero-initialised, so `pf 0 = 0`). -/
def pfUpTo (s : Str) : Nat → List Nat
  | 0 => [0]
  | i + 1 =>
    let pf := pfUpTo s i
    let j0 := pf.getD i 0
    let j1 := fb s pf (i + 1) j0 j0
    pf ++ [if s.getD (i + 1) dflt = s.getD j1 dflt then j1 + 1 else j1]

/-- The failure-function value stored at position `i` of the array. -/
def piFun (s : Str) (i : Nat) : Nat :=
  (pfUpTo s i).getD i 0

/-- The composite string `pattern + char(delim) + base`. -/
def kmpComp (b p : Str) : Str :=
  p ++ delim :: b

/-- Hit discovery of `KnuthMorrisPratt`: scan positions `1 <= i < l` of the
composite string and record a hit at `i - 2*m` whenever `prefix[i] == m`. -/
def kmpHits (b p : Str) : List Hit :=
  let s := kmpComp b p
  let pf := pfUpTo s (s.length - 1)
  (List.range' 1 (s.length - 1)).filterMap fun i =>
    if pf.getD i 0 = p.length then
      some ⟨(i : Int) - 2 * p.length, (p.length : Int), 1⟩
    else none

/-- `Match KnuthMorrisPratt(const string& base, const string& pattern)`. -/
def KnuthMorrisPratt (b p : Str) : Match :=
  Match.make b p (kmpHits b p)

/-! ## Boyer-Moore -/

/-- The bad-character table: `vector<int> table (sigma, m);` then
`for (i = 0; i < m-1; ++i) table[pattern[i]] = m-i-1;`.  The vector indexed
by the symbol's code is modelled as a function on symbols. -/
def bmTable (p : Str) : Char → Int :=
  (List.range (p.length - 1)).foldl
    (fun t i => Function.update t (p.getD i dflt) ((p.length : Int) - i - 1))
    (fun _ => (p.length : Int))

/-- `shift += (table[badchar] > 1) ? table[badchar] : 1;` — the amount the
window advances after a comparison stops. -/
def bmAdvance (tbl : Char → Int) (bad : Char) : Int :=
  if tbl bad > 1 then tbl bad else 1

/-- The inner loop `while (i >= 0 and pattern[i] == base[i+shift]) --i;`
running down from index `i`; returns the final value of `i` (`-1` on a
full right-to-left match). -/
def bmWalk (b p : Str) (shift : Nat) : Nat → Int
  | 0 => if p.getD 0 dflt = b.getD shift dflt then -1 else 0
  | i + 1 =>
    if p.getD (i + 1) dflt = b.getD (i + 1 + shift) dflt then
      bmWalk b p shift i
    else ((i : Int) + 1)

/-- The inner comparison starting at `i = m-1` (with `m = 0` the loop body
is never entered and `i` is already `-1`). -/
def bmInner (b p : Str) (shift : Nat) : Int :=
  if p.length = 0 then -1 else bmWalk b p shift (p.length - 1)

/-- `base[idx]` for a C++ `int` index.  An index outside `[0, n)` is an
out-of-bounds access of the `std::string` buffer (undefined behaviour);
the model returns the delimiter for it, and `bmGo` flags the access. -/
def bmReadInt (b : Str) (idx : Int) : Char :=
  if 0 ≤ idx ∧ idx < (b.length : Int) then b.getD idx.toNat dflt else delim

/-- Result of the Boyer-Moore main loop: the recorded hits, and whether
some iteration read `base` outside its bounds. -/
structure BMOut where
  hits : List Hit
  oob : Bool
  deriving DecidableEq, Repr

/-- The main loop `while (shift < n-m) { ... }`.  Fuel only makes the
recursion structural: every iteration advances `shift` by at least `1`,
so fuel `>= n - m - shift` suffices and the loop exits by its own guard. -/
def bmGo (b p : Str) (tbl : Char → Int) (shift : Nat) : Nat → BMOut
  | 0 => ⟨[], false⟩
  | fuel + 1 =>
    if shift < b.length - p.length then
      let i := bmInner b p shift
      let idx : Int := i + shift
      let bad := bmReadInt b idx
      let rest := bmGo b p tbl (shift + (bmAdvance tbl bad).toNat) fuel
      ⟨(if i = -1 then [⟨(shift : Int), (p.length : Int), 1⟩] else []) ++ rest.hits,
        (decide (idx < 0) || decide ((b.length : Int) ≤ idx)) || rest.oob⟩
    else ⟨[], false⟩

/-- `Match BoyerMoore(const string& base, const string& pattern)`. -/
def BoyerMoore (b p : Str) : Match :=
  Match.make b p (bmGo b p (bmTable p) 0 b.length).hits

/-- Whether `BoyerMoore` performs an out-of-bounds read of `base`. -/
def BoyerMooreOOB (b p : Str) : Bool :=
  (bmGo b p (bmTable p) 0 b.length).oob

/-! ## List helper lemmas -/

theorem getD_of_lt (l : Str) {n : Nat} (h : n < l.length) :
    l.getD n dflt = l[n] :=
  List.getD_eq_getElem l dflt h

theorem take_succ_getD (l : Str) {n : Nat} (h : n < l.length) :
    l.take (n + 1) = l.take n ++ [l.getD n dflt] := by
  rw [List.take_succ, List.getElem?_eq_getElem h, getD_of_lt l h]
  rfl

theorem getD_take {l : Str} {i n : Nat} (h : i < n) (h2 : i < l.length) :
    (l.take n).getD i dflt = l.getD i dflt := by
  have hlt : i < (l.take n).length := by
    rw [List.length_take]; exact lt_min h h2
  rw [List.getD_eq_getElem _ _ hlt, getD_of_lt l h2, List.getElem_take]

theorem getD_drop {l : Str} {i n : Nat} (h : n + i < l.length) :
    (l.drop n).getD i dflt = l.getD (n + i) dflt := by
  have hlt : i < (l.drop n).length := by
    rw [List.length_drop]; omega
  rw [List.getD_eq_getElem _ _ hlt, getD_of_lt l h, List.getElem_drop]

theorem suffix_concat_iff {l1 l2 : Str} {a c : Char} :
    (l1 ++ [a]) <:+ (l2 ++ [c]) ↔ a = c ∧ l1 <:+ l2 := by
  rw [← List.reverse_prefix]
  simp only [List.reverse_append, List.reverse_singleton, List.singleton_append]
  rw [List.cons_prefix_cons, List.reverse_prefix]

/-- Two strings are equal when they have the same length and agree at every
in-range position. -/
theorem str_ext {l1 l2 : Str} (hl : l1.length = l2.length)
    (h : ∀ t, t < l1.length → l1.getD t dflt = l2.getD t dflt) : l1 = l2 := by
  refine List.ext_getElem hl fun n h1 h2 => ?_
  rw [← getD_of_lt l1 h1, ← getD_of_lt l2 h2]
  exact h n h1

/-! ## Borders and correctness of the failure-function loop -/

/-- `k` is a (proper) border length of the prefix of `s` ending at position
`i`: the first `k` symbols also occur as the suffix ending at `i`. -/
def Brd (s : Str) (i k : Nat) : Prop :=
  k ≤ i ∧ s.take k <:+ s.take (i + 1)

theorem Brd_zero (s : Str) (i : Nat) : Brd s i 0 :=
  ⟨Nat.zero_le _, by simp⟩

/-- Extending a border by one matching symbol. -/
theorem Brd_ext {s : Str} {i k : Nat} (hi : i + 1 < s.length) :
    Brd s (i + 1) (k + 1) ↔ Brd s i k ∧ s.getD (i + 1) dflt = s.getD k dflt := by
  constructor
  · rintro ⟨hk, hsuf⟩
    have hk' : k ≤ i := Nat.lt_succ_iff.mp hk
    have hkl : k < s.length := lt_of_le_of_lt hk' (Nat.lt_of_succ_lt hi)
    rw [take_succ_getD s hi, take_succ_getD s hkl] at hsuf
    rcases suffix_concat_iff.mp hsuf with ⟨hc, hs⟩
    exact ⟨⟨hk', hs⟩, hc.symm⟩
  · rintro ⟨⟨hk, hsuf⟩, hc⟩
    have hkl : k < s.length := lt_of_le_of_lt hk (Nat.lt_of_succ_lt hi)
    refine ⟨Nat.succ_le_succ hk, ?_⟩
    rw [take_succ_getD s hi, take_succ_getD s hkl]
    exact suffix_concat_iff.mpr ⟨hc.symm, hsuf⟩

/-- Of two borders of the same position, the shorter is a border of the
position where the longer one ends. -/
theorem Brd_of_lt {s : Str} {i k K : Nat}
    (h1 : Brd s i k) (h2 : Brd s i (K + 1)) (hkK : k ≤ K) : Brd s K k := by
  refine ⟨hkK, ?_⟩
  refine List.suffix_of_suffix_length_le h1.2 h2.2 ?_
  rw [List.length_take, List.length_take]
  exact min_le_min (by omega) (le_refl _)

/-- A border of a border is a border. -/
theorem Brd_trans {s : Str} {i k K : Nat}
    (h1 : Brd s K k) (h2 : Brd s i (K + 1)) : Brd s i k :=
  ⟨le_trans (le_trans h1.1 (Nat.le_succ K)) h2.1, h1.2.trans h2.2⟩

/-- Specification of the failure function: `v` is the longest border length
of the prefix ending at `i`. -/
def pfSpec (s : Str) (i v : Nat) : Prop :=
  Brd s i v ∧ ∀ k, Brd s i k → k ≤ v

theorem length_pfUpTo (s : Str) : ∀ i, (pfUpTo s i).length = i + 1 := by
  intro i
  induction i with
  | zero => rfl
  | succ i ih => simp only [pfUpTo, List.length_append, ih, List.length_singleton]

theorem pfUpTo_getD (s : Str) : ∀ i t, t ≤ i → (pfUpTo s i).getD t 0 = piFun s t := by
  intro i
  induction i with
  | zero => intro t ht; interval_cases t; rfl
  | succ i ih =>
    intro t ht
    rcases Nat.lt_or_ge t (i + 1) with hlt | hge
    · have hl : t < (pfUpTo s i).length := by rw [length_pfUpTo]; exact hlt
      have : (pfUpTo s (i + 1)).getD t 0 = (pfUpTo s i).getD t 0 := by
        simp only [pfUpTo]
        exact List.getD_append _ _ _ _ hl
      rw [this, ih t (Nat.lt_succ_iff.mp hlt)]
    · have ht' : t = i + 1 := le_antisymm ht hge
      subst ht'
      rfl

/-- Correctness of the fallback loop: started at the longest border of
position `i` with enough fuel, it returns a border `r` of `i` that is
maximal among borders whose next symbol matches `s[i+1]`, and that itself
matches `s[i+1]` unless it is `0`. -/
theorem fb_correct {s : Str} {pf : List Nat} {i : Nat}
    (hpf : ∀ t, t < i → pfSpec s t (pf.getD t 0)) :
    ∀ fuel j, j ≤ fuel → Brd s i j →
      (∀ k, Brd s i k → s.getD (i + 1) dflt = s.getD k dflt → k ≤ j) →
      Brd s i (fb s pf (i + 1) j fuel) ∧
        (∀ k, Brd s i k → s.getD (i + 1) dflt = s.getD k dflt →
          k ≤ fb s pf (i + 1) j fuel) ∧
        (0 < fb s pf (i + 1) j fuel →
          s.getD (i + 1) dflt = s.getD (fb s pf (i + 1) j fuel) dflt) := by
  intro fuel
  induction fuel with
  | zero =>
    intro j hj hb hmax
    have hj0 : j = 0 := Nat.le_zero.mp hj
    subst hj0
    exact ⟨Brd_zero s i, hmax, fun h => absurd h (lt_irrefl 0)⟩
  | succ fuel ih =>
    intro j hj hb hmax
    by_cases hg : 0 < j ∧ s.getD (i + 1) dflt ≠ s.getD j dflt
    · have hstep : fb s pf (i + 1) j (fuel + 1) = fb s pf (i + 1) (pf.getD (j - 1) 0) fuel := by
        simp only [fb, if_pos hg]
      rw [hstep]
      have hji : j ≤ i := hb.1
      have hj1 : j - 1 < i := by omega
      have hspec := hpf (j - 1) hj1
      set j' := pf.getD (j - 1) 0 with hj'
      have hjeq : j - 1 + 1 = j := by omega
      have hbj' : Brd s i j' := by
        refine Brd_trans hspec.1 ?_
        rw [hjeq]; exact hb
      have hj'le : j' ≤ j - 1 := hspec.1.1
      refine ih j' (by omega) hbj' ?_
      intro k hk hc
      have hkj : k ≤ j := hmax k hk hc
      have hkne : k ≠ j := by
        intro h; rw [h] at hc; exact hg.2 hc
      have hkj1 : k ≤ j - 1 := by omega
      have hkb : Brd s (j - 1) k := by
        refine Brd_of_lt hk ?_ hkj1
        rw [hjeq]; exact hb
      exact hspec.2 k hkb
    · have hstep : fb s pf (i + 1) j (fuel + 1) = j := by
        simp only [fb, if_neg hg]
      rw [hstep]
      refine ⟨hb, hmax, ?_⟩
      intro h0
      by_contra hne
      exact hg ⟨h0, hne⟩

/-- Unfolding of the failure-function recurrence at a successor position. -/
theorem piFun_succ (s : Str) (I : Nat) :
    piFun s (I + 1) =
      if s.getD (I + 1) dflt =
          s.getD (fb s (pfUpTo s I) (I + 1) ((pfUpTo s I).getD I 0)
            ((pfUpTo s I).getD I 0)) dflt
      then fb s (pfUpTo s I) (I + 1) ((pfUpTo s I).getD I 0)
            ((pfUpTo s I).getD I 0) + 1
      else fb s (pfUpTo s I) (I + 1) ((pfUpTo s I).getD I 0)
            ((pfUpTo s I).getD I 0) := by
  show (pfUpTo s (I + 1)).getD (I + 1) 0 = _
  have hlen : (pfUpTo s I).length = I + 1 := length_pfUpTo s I
  simp only [pfUpTo]
  rw [List.getD_append_right _ _ _ _ (le_of_eq hlen), hlen, Nat.sub_self,
    List.getD_cons_zero]

/-- The failure-function table computed by the `KnuthMorrisPratt` loop is
correct: entry `i` is the longest proper border of the prefix ending at
`i`. -/
theorem pf_correct (s : Str) : ∀ I, I < s.length → ∀ t, t ≤ I → pfSpec s t (piFun s t) := by
  intro I
  induction I with
  | zero =>
    intro _ t ht
    interval_cases t
    exact ⟨Brd_zero s 0, fun k hk => hk.1⟩
  | succ I ih =>
    intro hI t ht
    have hIlt : I < s.length := Nat.lt_of_succ_lt hI
    rcases Nat.lt_or_ge t (I + 1) with hlt | hge
    · exact ih hIlt t (Nat.lt_succ_iff.mp hlt)
    have ht' : t = I + 1 := le_antisymm ht hge
    subst ht'
    have hpf : ∀ u, u < I → pfSpec s u ((pfUpTo s I).getD u 0) := by
      intro u hu
      rw [pfUpTo_getD s I u (le_of_lt hu)]
      exact ih hIlt u (le_of_lt hu)
    have hspecI := ih hIlt I (le_refl I)
    have hj0 : (pfUpTo s I).getD I 0 = piFun s I := pfUpTo_getD s I I (le_refl I)
    have hb0 : Brd s I ((pfUpTo s I).getD I 0) := by rw [hj0]; exact hspecI.1
    have hmax0 : ∀ k, Brd s I k → s.getD (I + 1) dflt = s.getD k dflt →
        k ≤ (pfUpTo s I).getD I 0 := by
      intro k hk _
      rw [hj0]
      exact hspecI.2 k hk
    have fbp := fb_correct hpf ((pfUpTo s I).getD I 0) ((pfUpTo s I).getD I 0)
      (le_refl _) hb0 hmax0
    have hval := piFun_succ s I
    set r := fb s (pfUpTo s I) (I + 1) ((pfUpTo s I).getD I 0)
      ((pfUpTo s I).getD I 0) with hrdef
    rw [hval]
    by_cases hc : s.getD (I + 1) dflt = s.getD r dflt
    · rw [if_pos hc]
      refine ⟨(Brd_ext hI).mpr ⟨fbp.1, hc⟩, ?_⟩
      intro k' hk'
      match k' with
      | 0 => exact Nat.zero_le _
      | k + 1 =>
        rcases (Brd_ext hI).mp hk' with ⟨hbk, hck⟩
        exact Nat.succ_le_succ (fbp.2.1 k hbk hck)
    · rw [if_neg hc]
      have hr0 : r = 0 := by
        by_contra hne
        exact hc (fbp.2.2 (Nat.pos_of_ne_zero hne))
      rw [hr0]
      refine ⟨Brd_zero s (I + 1), ?_⟩
      intro k' hk'
      match k' with
      | 0 => exact le_refl 0
      | k + 1 =>
        rcases (Brd_ext hI).mp hk' with ⟨hbk, hck⟩
        have hk0 : k ≤ r := fbp.2.1 k hbk hck
        rw [hr0] at hk0
        have hkz : k = 0 := Nat.le_zero.mp hk0
        subst hkz
        rw [← hr0] at hck
        exact absurd hck hc

/-! ## The composite string and the delimiter -/

theorem comp_length (b p : Str) :
    (kmpComp b p).length = p.length + b.length + 1 := by
  simp [kmpComp]
  omega

theorem comp_getD_lt {b p : Str} {t : Nat} (h : t < p.length) :
    (kmpComp b p).getD t dflt = p.getD t dflt :=
  List.getD_append _ _ _ _ h

theorem comp_getD_eq (b p : Str) :
    (kmpComp b p).getD p.length dflt = delim := by
  rw [kmpComp, List.getD_append_right _ _ _ _ (le_refl _), Nat.sub_self,
    List.getD_cons_zero]

theorem comp_getD_gt {b p : Str} {t : Nat} (h : p.length < t) :
    (kmpComp b p).getD t dflt = b.getD (t - (p.length + 1)) dflt := by
  rw [kmpComp, List.getD_append_right _ _ _ _ (le_of_lt h)]
  have : t - p.length = (t - (p.length + 1)) + 1 := by omega
  rw [this, List.getD_cons_succ]

theorem getD_mem {l : Str} {t : Nat} (h : t < l.length) : l.getD t dflt ∈ l := by
  rw [getD_of_lt l h]
  exact List.getElem_mem h

/-- The delimiter occurs in the composite string exactly at position `m`. -/
theorem delim_unique {b p : Str} (hdp : delim ∉ p) (hdb : delim ∉ b)
    {t : Nat} (ht : t < (kmpComp b p).length) :
    (kmpComp b p).getD t dflt = delim ↔ t = p.length := by
  constructor
  · intro h
    by_contra hne
    rcases Nat.lt_or_ge t p.length with hlt | hge
    · rw [comp_getD_lt hlt] at h
      exact hdp (h ▸ getD_mem hlt)
    · have hgt : p.length < t := lt_of_le_of_ne hge (Ne.symm hne)
      rw [comp_getD_gt hgt] at h
      have hbl : t - (p.length + 1) < b.length := by
        rw [comp_length] at ht
        omega
      exact hdb (h ▸ getD_mem hbl)
  · intro h
    rw [h]
    exact comp_getD_eq b p

/-- With the delimiter absent from pattern and base, no failure-function
value on the composite string can exceed the pattern length. -/
theorem piFun_le {b p : Str} (hdp : delim ∉ p) (hdb : delim ∉ b)
    {i : Nat} (hi : i < (kmpComp b p).length) :
    piFun (kmpComp b p) i ≤ p.length := by
  by_contra hgt
  push_neg at hgt
  have hspec := pf_correct (kmpComp b p) i hi i (le_refl i)
  obtain ⟨⟨hvi, hsuf⟩, _⟩ := hspec
  obtain ⟨t, hteq⟩ := hsuf
  have hm : p.length < (kmpComp b p).length := by rw [comp_length]; omega
  have hvlen : ((kmpComp b p).take (piFun (kmpComp b p) i)).length = piFun (kmpComp b p) i := by
    rw [List.length_take]
    exact min_eq_left (le_trans hvi (le_of_lt hi))
  have hilen : ((kmpComp b p).take (i + 1)).length = i + 1 := by
    rw [List.length_take]
    exact min_eq_left hi
  have htlen : t.length = i + 1 - piFun (kmpComp b p) i := by
    have := congrArg List.length hteq
    rw [List.length_append, hvlen, hilen] at this
    omega
  have hidx : (t ++ (kmpComp b p).take (piFun (kmpComp b p) i)).getD (t.length + p.length) dflt
      = ((kmpComp b p).take (piFun (kmpComp b p) i)).getD p.length dflt := by
    rw [List.getD_append_right _ _ _ _ (Nat.le_add_right _ _), Nat.add_sub_cancel_left]
  rw [hteq] at hidx
  have hlt1 : t.length + p.length < i + 1 := by omega
  have hlt2 : t.length + p.length < (kmpComp b p).length := lt_of_lt_of_le hlt1 hi
  rw [getD_take hlt1 hlt2, getD_take hgt hm, comp_getD_eq] at hidx
  have := (delim_unique hdp hdb hlt2).mp hidx
  omega

/-- Occurrence characterisation: on the composite string the failure
function reaches `m` exactly at the positions `2*m + q` where the pattern
occurs in the base at offset `q`. -/
theorem piFun_eq_m_iff {b p : Str} (hdp : delim ∉ p) (hdb : delim ∉ b)
    (hm : 1 ≤ p.length) {i : Nat} (hi : i < (kmpComp b p).length) :
    piFun (kmpComp b p) i = p.length ↔
      ∃ q : Nat, i = 2 * p.length + q ∧ q + p.length ≤ b.length ∧
        (b.drop q).take p.length = p := by
  have hcl : (kmpComp b p).length = p.length + b.length + 1 := comp_length b p
  constructor
  · intro h
    have hspec := pf_correct (kmpComp b p) i hi i (le_refl i)
    have hbrd : Brd (kmpComp b p) i p.length := h ▸ hspec.1
    obtain ⟨hmi, hsuf⟩ := hbrd
    have htkm : (kmpComp b p).take p.length = p := by
      have : (kmpComp b p).take p.length = List.take p.length (p ++ delim :: b) := rfl
      rw [this, List.take_left' rfl]
    rw [htkm] at hsuf
    obtain ⟨t, hteq⟩ := hsuf
    have hilen : ((kmpComp b p).take (i + 1)).length = i + 1 := by
      rw [List.length_take]
      exact min_eq_left hi
    have htlen : t.length = i + 1 - p.length := by
      have := congrArg List.length hteq
      rw [List.length_append, hilen] at this
      omega
    -- the copied pattern cannot cover the delimiter position `m`
    have hge : 2 * p.length ≤ i := by
      by_contra hcon
      push_neg at hcon
      have hcov : t.length ≤ p.length := by omega
      have hidx : (t ++ p).getD p.length dflt = p.getD (p.length - t.length) dflt :=
        List.getD_append_right _ _ _ _ hcov
      rw [hteq] at hidx
      have hlt1 : p.length < i + 1 := by omega
      have hmlen : p.length < (kmpComp b p).length := by omega
      rw [getD_take hlt1 hmlen, comp_getD_eq] at hidx
      have hplt : p.length - t.length < p.length := by omega
      exact hdp (hidx.symm ▸ getD_mem hplt)
    refine ⟨i - 2 * p.length, by omega, by omega, ?_⟩
    -- pointwise equality of the window with the pattern
    have hwlen : ((b.drop (i - 2 * p.length)).take p.length).length = p.length := by
      rw [List.length_take, List.length_drop]
      exact min_eq_left (by omega)
    refine str_ext (by rw [hwlen]) ?_
    intro r hr
    rw [hwlen] at hr
    have h1 : ((b.drop (i - 2 * p.length)).take p.length).getD r dflt
        = b.getD (i - 2 * p.length + r) dflt := by
      rw [getD_take hr (by rw [List.length_drop]; omega), getD_drop (by omega)]
    have h2 : p.getD r dflt = (t ++ p).getD (t.length + r) dflt := by
      rw [List.getD_append_right _ _ _ _ (Nat.le_add_right _ _), Nat.add_sub_cancel_left]
    rw [hteq] at h2
    have hlt1 : t.length + r < i + 1 := by omega
    have hlt2 : t.length + r < (kmpComp b p).length := by omega
    rw [getD_take hlt1 hlt2] at h2
    have hgtm : p.length < t.length + r ∨ t.length + r ≥ p.length + 1 := by omega
    have h3 : (kmpComp b p).getD (t.length + r) dflt
        = b.getD (t.length + r - (p.length + 1)) dflt := comp_getD_gt (by omega)
    rw [h3] at h2
    have : t.length + r - (p.length + 1) = i - 2 * p.length + r := by omega
    rw [this] at h2
    rw [h1, h2]
  · rintro ⟨q, hiq, hqn, hwin⟩
    have hile : i < (kmpComp b p).length := hi
    -- `m` is a border of position `i`
    have hbrd : Brd (kmpComp b p) i p.length := by
      refine ⟨by omega, ?_⟩
      have htkm : (kmpComp b p).take p.length = p := by
        have : (kmpComp b p).take p.length = List.take p.length (p ++ delim :: b) := rfl
        rw [this, List.take_left' rfl]
      rw [htkm]
      have hsplit : (kmpComp b p).take (i + 1)
          = (kmpComp b p).take (i + 1 - p.length) ++
            (((kmpComp b p).drop (i + 1 - p.length)).take p.length) := by
        have : i + 1 = (i + 1 - p.length) + p.length := by omega
        conv_lhs => rw [this, List.take_add]
      have hdropeq : (kmpComp b p).drop (i + 1 - p.length) = b.drop q := by
        have h1 : i + 1 - p.length = (p ++ [delim]).length + q := by
          rw [List.length_append, List.length_singleton]
          omega
        have h2 : kmpComp b p = (p ++ [delim]) ++ b := by
          rw [kmpComp, List.append_assoc, List.singleton_append]
        rw [h1, h2, List.drop_append]
      rw [hsplit, hdropeq, hwin]
      exact List.suffix_append _ _
    have hle := piFun_le hdp hdb hi
    have hspec := pf_correct (kmpComp b p) i hi i (le_refl i)
    exact le_antisymm hle (hspec.2 p.length hbrd)

/-! ## Hit characterisations of the four algorithms -/

/-- Membership in `Naive`'s hit list. -/
theorem naiveHits_mem (b p : Str) (h : Hit) :
    h ∈ (Naive b p).hits ↔
      ∃ i : Nat, i < b.length - p.length ∧ (b.drop i).take p.length = p ∧
        h = ⟨(i : Int), (p.length : Int), 1⟩ := by
  show h ∈ naiveHits b p ↔ _
  rw [naiveHits, List.mem_filterMap]
  constructor
  · rintro ⟨i, hmem, hsome⟩
    rw [Option.ite_none_right_eq_some] at hsome
    exact ⟨i, List.mem_range.mp hmem, hsome.1, (Option.some_inj.mp hsome.2).symm⟩
  · rintro ⟨i, hlt, hwin, heq⟩
    exact ⟨i, List.mem_range.mpr hlt,
      Option.ite_none_right_eq_some.mpr ⟨hwin, by rw [heq]⟩⟩

/-- Membership in `KnuthMorrisPratt`'s hit list: exactly the pattern
occurrences in the base, over the full offset range `0 <= q <= n-m`. -/
theorem kmpHits_mem {b p : Str} (hdp : delim ∉ p) (hdb : delim ∉ b)
    (hm : 1 ≤ p.length) (h : Hit) :
    h ∈ (KnuthMorrisPratt b p).hits ↔
      ∃ q : Nat, q + p.length ≤ b.length ∧ (b.drop q).take p.length = p ∧
        h = ⟨(q : Int), (p.length : Int), 1⟩ := by
  show h ∈ kmpHits b p ↔ _
  rw [kmpHits, List.mem_filterMap]
  have hcl : (kmpComp b p).length = p.length + b.length + 1 := comp_length b p
  constructor
  · rintro ⟨i, hmem, hsome⟩
    rw [Option.ite_none_right_eq_some] at hsome
    rcases List.mem_range'_1.mp hmem with ⟨h1, h2⟩
    have hilt : i < (kmpComp b p).length := by
      rw [hcl]; rw [hcl] at h2; omega
    have hiup : i ≤ (kmpComp b p).length - 1 := by
      rw [hcl]; rw [hcl] at h2; omega
    have hpf : piFun (kmpComp b p) i = p.length := by
      rw [← pfUpTo_getD (kmpComp b p) ((kmpComp b p).length - 1) i hiup]
      exact hsome.1
    rcases (piFun_eq_m_iff hdp hdb hm hilt).mp hpf with ⟨q, hiq, hqn, hwin⟩
    refine ⟨q, hqn, hwin, ?_⟩
    have := Option.some_inj.mp hsome.2
    rw [← this, hiq]
    congr 1
    push_cast
    omega
  · rintro ⟨q, hqn, hwin, heq⟩
    refine ⟨2 * p.length + q, ?_, ?_⟩
    · rw [List.mem_range'_1, hcl]
      omega
    · rw [Option.ite_none_right_eq_some]
      have hb1 : 2 * p.length + q ≤ (kmpComp b p).length - 1 := by
        rw [hcl]; omega
      have hb2 : 2 * p.length + q < (kmpComp b p).length := by
        rw [hcl]; omega
      constructor
      · rw [pfUpTo_getD (kmpComp b p) ((kmpComp b p).length - 1) _ hb1]
        exact (piFun_eq_m_iff hdp hdb hm hb2).mpr ⟨q, rfl, hqn, hwin⟩
      · rw [heq]
        congr 2
        push_cast
        omega

/-! ## Rabin-Karp: the rolling-hash invariant -/

theorem polyHash_concat (l : Str) (c : Char) :
    polyHash (l ++ [c]) = polyHash l + charVal c * pk ^ l.length := by
  induction l with
  | nil => simp [polyHash]
  | cons a t ih =>
    show polyHash (a :: (t ++ [c])) = _
    rw [polyHash, ih, polyHash]
    simp only [List.length_cons, pow_succ]
    ring

/-- The slide step of `RabinKarp` maps the hash of window `i` to the hash
of window `i + 1` (exactly, since the dividend is an exact multiple of the
multiplier). -/
theorem rkSlide_windowHash {b : Str} {m i : Nat} (h : i + m < b.length) :
    rkSlide b m (windowHash b m i) i = windowHash b m (i + 1) := by
  have hpk : (pk : Int) ≠ 0 := by rw [pk]; norm_num
  match m with
  | 0 =>
    simp only [windowHash, List.take_zero, polyHash, rkSlide, pow_zero, mul_one]
    simp only [Nat.add_zero]
    rw [sub_add_cancel, Int.zero_tdiv]
  | m + 1 =>
    have hib : i < b.length := by omega
    have hwin : (b.drop i).take (m + 1)
        = b.getD i dflt :: ((b.drop (i + 1)).take m) := by
      rw [List.drop_eq_getElem_cons hib, List.take_succ_cons, getD_of_lt b hib]
    have hnext : (b.drop (i + 1)).take (m + 1)
        = ((b.drop (i + 1)).take m) ++ [b.getD (i + (m + 1)) dflt] := by
      have hlt : m < (b.drop (i + 1)).length := by
        rw [List.length_drop]; omega
      rw [take_succ_getD _ hlt, getD_drop (by omega)]
      congr 3
      omega
    have hlen : ((b.drop (i + 1)).take m).length = m := by
      rw [List.length_take, List.length_drop]
      exact min_eq_left (by omega)
    rw [windowHash, windowHash, hwin, hnext, polyHash, polyHash_concat, hlen, rkSlide]
    have harith : charVal (b.getD i dflt) + pk * polyHash ((b.drop (i + 1)).take m)
        - charVal (b.getD i dflt) + charVal (b.getD (i + (m + 1)) dflt) * pk ^ (m + 1)
        = pk * (polyHash ((b.drop (i + 1)).take m)
            + charVal (b.getD (i + (m + 1)) dflt) * pk ^ m) := by
      rw [pow_succ]
      ring
    rw [harith, Int.mul_tdiv_cancel_left _ hpk]

/-- The main loop of `RabinKarp`, started with the correct window hash,
records a hit exactly at the windows whose hash equals the pattern hash. -/
theorem rkGo_eq (b : Str) (m : Nat) (hp : Int) :
    ∀ k i, i + k + m ≤ b.length →
      rkGo b m hp (windowHash b m i) i k = (List.range' i k).filterMap fun t =>
        if windowHash b m t = hp then some ⟨(t : Int), (m : Int), 1⟩ else none := by
  intro k
  induction k with
  | zero => intro i _; rfl
  | succ k ih =>
    intro i hik
    rw [List.range'_succ, List.filterMap_cons]
    have hslide : rkSlide b m (windowHash b m i) i = windowHash b m (i + 1) :=
      rkSlide_windowHash (by omega)
    show (if windowHash b m i = hp then [⟨(i : Int), (m : Int), 1⟩] else []) ++
        rkGo b m hp (rkSlide b m (windowHash b m i)  i) (i + 1) k = _
    rw [hslide, ih (i + 1) (by omega)]
    by_cases hc : windowHash b m i = hp
    · rw [if_pos hc, if_pos hc]
      rfl
    · rw [if_neg hc, if_neg hc]
      rfl

/-- The hit list of `RabinKarp` as a filter of the window range. -/
theorem rkHits_eq (b p : Str) :
    (RabinKarp b p).hits = (List.range' 0 (b.length - p.length)).filterMap fun t =>
      if windowHash b p.length t = polyHash p then
        some ⟨(t : Int), (p.length : Int), 1⟩
      else none := by
  rcases le_or_lt p.length b.length with hle | hlt
  · show rkGo b p.length (polyHash p) (polyHash (b.take p.length)) 0 (b.length - p.length) = _
    have h0 : polyHash (b.take p.length) = windowHash b p.length 0 := by
      rw [windowHash, List.drop_zero]
    rw [h0]
    exact rkGo_eq b p.length (polyHash p) (b.length - p.length) 0 (by omega)
  · have hz : b.length - p.length = 0 := by omega
    show rkGo b p.length (polyHash p) (polyHash (b.take p.length)) 0 (b.length - p.length) = _
    rw [hz]
    rfl

/-- Membership in `RabinKarp`'s hit list: exactly the windows with a hash
collision against the pattern (equal windows in particular). -/
theorem rkHits_mem (b p : Str) (h : Hit) :
    h ∈ (RabinKarp b p).hits ↔
      ∃ i : Nat, i < b.length - p.length ∧
        windowHash b p.length i = polyHash p ∧
        h = ⟨(i : Int), (p.length : Int), 1⟩ := by
  rw [rkHits_eq, List.mem_filterMap]
  constructor
  · rintro ⟨i, hmem, hsome⟩
    rw [Option.ite_none_right_eq_some] at hsome
    rcases List.mem_range'_1.mp hmem with ⟨_, h2⟩
    exact ⟨i, by omega, hsome.1, (Option.some_inj.mp hsome.2).symm⟩
  · rintro ⟨i, hlt, hhash, heq⟩
    exact ⟨i, List.mem_range'_1.mpr ⟨Nat.zero_le i, by omega⟩,
      Option.ite_none_right_eq_some.mpr ⟨hhash, by rw [heq]⟩⟩

/-! ## Collision-freeness of the unreduced hash on the declared alphabet -/

theorem charVal_of_lt {c : Char} (h : c.toNat < 128) : charVal c = (c.toNat : Int) := by
  rw [charVal]
  have hm : c.toNat % 256 = c.toNat := Nat.mod_eq_of_lt (by omega)
  simp only [hm, if_pos h]

theorem charVal_nonneg_of_lt {c : Char} (h : c.toNat < 128) :
    0 ≤ charVal c ∧ charVal c < 128 := by
  rw [charVal_of_lt h]
  constructor
  · exact Int.natCast_nonneg _
  · exact_mod_cast h

/-- On symbols of the declared alphabet (codes below `sigma = 128`) the
unreduced polynomial hash with multiplier `257` is injective on strings of
equal length: there are no collisions at all. -/
theorem polyHash_inj : ∀ l1 l2 : Str, l1.length = l2.length →
    (∀ c ∈ l1, c.toNat < 128) → (∀ c ∈ l2, c.toNat < 128) →
    polyHash l1 = polyHash l2 → l1 = l2 := by
  intro l1
  induction l1 with
  | nil =>
    intro l2 hlen _ _ _
    cases l2 with
    | nil => rfl
    | cons c t => simp at hlen
  | cons c1 t1 ih =>
    intro l2 hlen ha1 ha2 hh
    cases l2 with
    | nil => simp at hlen
    | cons c2 t2 =>
      have hc1 : c1.toNat < 128 := ha1 c1 (List.mem_cons_self c1 t1)
      have hc2 : c2.toNat < 128 := ha2 c2 (List.mem_cons_self c2 t2)
      rw [polyHash, polyHash] at hh
      have hdvd : pk ∣ (charVal c1 - charVal c2) := by
        refine ⟨polyHash t2 - polyHash t1, ?_⟩
        linarith
      have hb1 := charVal_nonneg_of_lt hc1
      have hb2 := charVal_nonneg_of_lt hc2
      have habs : |charVal c1 - charVal c2| < pk := by
        rw [abs_lt, pk]
        constructor <;> [linarith; linarith]
      have hzero : charVal c1 - charVal c2 = 0 := Int.eq_zero_of_abs_lt_dvd hdvd habs
      have hceq : c1 = c2 := by
        have : (c1.toNat : Int) = (c2.toNat : Int) := by
          rw [← charVal_of_lt hc1, ← charVal_of_lt hc2]
          omega
        have htn : c1.toNat = c2.toNat := by exact_mod_cast this
        rw [← Char.ofNat_toNat c1, ← Char.ofNat_toNat c2, htn]
      have hteq : polyHash t1 = polyHash t2 := by
        rw [hceq] at hh
        have hpk : (pk : Int) ≠ 0 := by rw [pk]; norm_num
        have := add_left_cancel hh
        exact mul_left_cancel₀ hpk this
      rw [hceq, ih t2 (by simpa using hlen)
        (fun c hc => ha1 c (List.mem_cons_of_mem c1 hc))
        (fun c hc => ha2 c (List.mem_cons_of_mem c2 hc)) hteq]

/-! ## Boyer-Moore: inner comparison, soundness, shift table -/

theorem bmWalk_neg_one_iff (b p : Str) (shift : Nat) :
    ∀ i, bmWalk b p shift i = -1 ↔
      ∀ t, t ≤ i → p.getD t dflt = b.getD (t + shift) dflt := by
  intro i
  induction i with
  | zero =>
    rw [bmWalk]
    by_cases hc : p.getD 0 dflt = b.getD shift dflt
    · rw [if_pos hc]
      constructor
      · intro _ t ht
        have ht0 : t = 0 := Nat.le_zero.mp ht
        rw [ht0, Nat.zero_add]
        exact hc
      · intro _; rfl
    · rw [if_neg hc]
      constructor
      · intro h; exact absurd h (by norm_num)
      · intro h
        have := h 0 (le_refl 0)
        rw [Nat.zero_add] at this
        exact absurd this hc
  | succ i ih =>
    rw [bmWalk]
    by_cases hc : p.getD (i + 1) dflt = b.getD (i + 1 + shift) dflt
    · rw [if_pos hc, ih]
      constructor
      · intro h t ht
        rcases Nat.lt_or_ge t (i + 1) with hlt | hge
        · exact h t (by omega)
        · have : t = i + 1 := by omega
          rw [this]
          exact hc
      · intro h t ht
        exact h t (by omega)
    · rw [if_neg hc]
      constructor
      · intro h
        exact absurd h (by omega)
      · intro h
        exact absurd (h (i + 1) (le_refl _)) hc

theorem bmInner_neg_one_iff (b p : Str) (shift : Nat) :
    bmInner b p shift = -1 ↔
      ∀ t, t < p.length → p.getD t dflt = b.getD (t + shift) dflt := by
  rw [bmInner]
  by_cases hm : p.length = 0
  · rw [if_pos hm]
    constructor
    · intro _ t ht
      omega
    · intro _; rfl
  · rw [if_neg hm, bmWalk_neg_one_iff]
    constructor
    · intro h t ht
      exact h t (by omega)
    · intro h t ht
      exact h t (by omega)

/-- Pointwise form of window equality. -/
theorem window_eq_iff {b p : Str} {shift : Nat} (h : shift + p.length ≤ b.length) :
    (b.drop shift).take p.length = p ↔
      ∀ t, t < p.length → p.getD t dflt = b.getD (t + shift) dflt := by
  have hwlen : ((b.drop shift).take p.length).length = p.length := by
    rw [List.length_take, List.length_drop]
    exact min_eq_left (by omega)
  constructor
  · intro heq t ht
    have h1 : ((b.drop shift).take p.length).getD t dflt = b.getD (shift + t) dflt := by
      rw [getD_take ht (by rw [List.length_drop]; omega), getD_drop (by omega)]
    rw [heq] at h1
    rw [h1, Nat.add_comm t shift]
  · intro hpt
    refine str_ext (by rw [hwlen]) ?_
    intro t ht
    rw [hwlen] at ht
    rw [getD_take ht (by rw [List.length_drop]; omega), getD_drop (by omega),
      ← Nat.add_comm t shift]
    exact (hpt t ht).symm

/-- Every hit `bmGo` records sits at a window offset below `n - m` whose
right-to-left comparison succeeded completely. -/
theorem bmGo_sound (b p : Str) (tbl : Char → Int) :
    ∀ fuel shift, ∀ h ∈ (bmGo b p tbl shift fuel).hits,
      ∃ sh : Nat, h = ⟨(sh : Int), (p.length : Int), 1⟩ ∧ shift ≤ sh ∧
        sh < b.length - p.length ∧ bmInner b p sh = -1 := by
  intro fuel
  induction fuel with
  | zero =>
    intro shift h hmem
    exact absurd hmem (List.not_mem_nil h)
  | succ fuel ih =>
    intro shift h hmem
    rw [bmGo] at hmem
    by_cases hg : shift < b.length - p.length
    · rw [if_pos hg] at hmem
      simp only [List.mem_append] at hmem
      rcases hmem with hm1 | hm2
      · by_cases hi : bmInner b p shift = -1
        · rw [if_pos hi] at hm1
          rcases List.mem_singleton.mp hm1 with rfl
          exact ⟨shift, rfl, le_refl _, hg, hi⟩
        · rw [if_neg hi] at hm1
          exact absurd hm1 (List.not_mem_nil h)
      · rcases ih _ h hm2 with ⟨sh, heq, hle, hlt, hin⟩
        exact ⟨sh, heq, by omega, hlt, hin⟩
    · rw [if_neg hg] at hmem
      exact absurd hmem (List.not_mem_nil h)

theorem bmAdvance_pos (tbl : Char → Int) (c : Char) : 1 ≤ bmAdvance tbl c := by
  rw [bmAdvance]
  by_cases hc : tbl c > 1
  · rw [if_pos hc]; omega
  · rw [if_neg hc]

/-- The recorded window offsets of `bmGo` are strictly increasing. -/
theorem bmGo_chain (b p : Str) (tbl : Char → Int) :
    ∀ fuel shift, ((bmGo b p tbl shift fuel).hits).Chain' fun a c => a.start < c.start := by
  intro fuel
  induction fuel with
  | zero => intro shift; exact List.chain'_nil
  | succ fuel ih =>
    intro shift
    rw [bmGo]
    by_cases hg : shift < b.length - p.length
    · rw [if_pos hg]
      simp only
      by_cases hi : bmInner b p shift = -1
      · rw [if_pos hi, List.singleton_append, List.chain'_cons']
        refine ⟨?_, ih _⟩
        intro y hy
        rcases bmGo_sound b p tbl fuel _ y (List.mem_of_mem_head? hy) with
          ⟨sh, heq, hle, _, _⟩
        rw [heq]
        have hadv : 1 ≤ (bmAdvance tbl (bmReadInt b (bmInner b p shift + shift))).toNat := by
          have := bmAdvance_pos tbl (bmReadInt b (bmInner b p shift + shift))
          omega
        show (shift : Int) < (sh : Int)
        have : shift + 1 ≤ sh := by omega
        exact_mod_cast by omega
      · rw [if_neg hi, List.nil_append]
        exact ih _
    · rw [if_neg hg]
      exact List.chain'_nil

/-- A decidable predicate that holds somewhere below `r` has a rightmost
witness below `r`. -/
theorem exists_rightmost {P : Nat → Prop} [DecidablePred P] :
    ∀ r, (∃ j, j < r ∧ P j) →
      ∃ j, j < r ∧ P j ∧ ∀ t, j < t → t < r → ¬ P t := by
  intro r
  induction r with
  | zero =>
    rintro ⟨j, hj, _⟩
    omega
  | succ r ih =>
    rintro ⟨j, hj, hP⟩
    by_cases hr : P r
    · exact ⟨r, Nat.lt_succ_self r, hr, fun t h1 h2 => by omega⟩
    · have hjr : j < r := by
        rcases Nat.lt_or_ge j r with h | h
        · exact h
        · have : j = r := by omega
          rw [this] at hP
          exact absurd hP hr
      rcases ih ⟨j, hjr, hP⟩ with ⟨j', h1, h2, h3⟩
      refine ⟨j', by omega, h2, ?_⟩
      intro t ht1 ht2
      rcases Nat.lt_or_ge t r with h | h
      · exact h3 t ht1 h
      · have : t = r := by omega
        rw [this]
        exact hr

theorem mem_take_iff {l : Str} {k : Nat} {c : Char} :
    c ∈ l.take k ↔ ∃ j, j < k ∧ j < l.length ∧ l.getD j dflt = c := by
  rw [List.mem_iff_getElem]
  constructor
  · rintro ⟨j, hj, hget⟩
    have hlen : j < k ∧ j < l.length := by
      rw [List.length_take] at hj
      omega
    refine ⟨j, hlen.1, hlen.2, ?_⟩
    rw [getD_of_lt l hlen.2, ← List.getElem_take (L := l) (h := hj)]
    exact hget
  · rintro ⟨j, hjk, hjl, hget⟩
    have hj : j < (l.take k).length := by
      rw [List.length_take]
      omega
    refine ⟨j, hj, ?_⟩
    rw [List.getElem_take l, ← getD_of_lt l hjl]
    exact hget

/-- Behaviour of the partially filled shift table after the first `r`
iterations of the preprocessing loop. -/
theorem bmTable_aux (p : Str) : ∀ r (c : Char),
    ((∀ j, j < r → p.getD j dflt ≠ c) →
      (List.range r).foldl
        (fun t i => Function.update t (p.getD i dflt) ((p.length : Int) - i - 1))
        (fun _ => (p.length : Int)) c = (p.length : Int)) ∧
    (∀ j, j < r → p.getD j dflt = c → (∀ t, j < t → t < r → p.getD t dflt ≠ c) →
      (List.range r).foldl
        (fun t i => Function.update t (p.getD i dflt) ((p.length : Int) - i - 1))
        (fun _ => (p.length : Int)) c = (p.length : Int) - 1 - j) := by
  intro r
  induction r with
  | zero =>
    intro c
    exact ⟨fun _ => rfl, fun j hj _ _ => by omega⟩
  | succ r ih =>
    intro c
    constructor
    · intro hno
      rw [List.range_succ, List.foldl_append, List.foldl_cons, List.foldl_nil]
      rw [Function.update_noteq (Ne.symm (hno r (Nat.lt_succ_self r)))]
      exact (ih c).1 fun j hj => hno j (by omega)
    · intro j hj hocc hlast
      rw [List.range_succ, List.foldl_append, List.foldl_cons, List.foldl_nil]
      by_cases hjr : j = r
      · subst hjr
        rw [hocc, Function.update_same]
        ring
      · have hjr' : j < r := by omega
        have hner : p.getD r dflt ≠ c := hlast r (by omega) (Nat.lt_succ_self r)
        rw [Function.update_noteq (Ne.symm hner)]
        exact (ih c).2 j hjr' hocc fun t h1 h2 => hlast t h1 (by omega)

/-- If the pattern matches at window offset `0` and is shorter than the
base, Boyer-Moore's bad-character lookup after the full match reads
`base[-1]`, out of bounds. -/
theorem bmGo_oob_of_match (b p : Str) (tbl : Char → Int)
    (hmn : p.length < b.length) (hmatch : bmInner b p 0 = -1) :
    ∀ fuel, 1 ≤ fuel → (bmGo b p tbl 0 fuel).oob = true := by
  intro fuel hfuel
  match fuel, hfuel with
  | fuel + 1, _ =>
    rw [bmGo, if_pos (by omega : 0 < b.length - p.length)]
    simp only [hmatch]
    norm_num

/-! ## Shared support: subset, discovery order, constructor, hash sum -/

/-- Every Boyer-Moore hit is a true occurrence found by `Naive`. -/
theorem bmHits_subset_naive (b p : Str) :
    ∀ h ∈ (BoyerMoore b p).hits, h ∈ (Naive b p).hits := by
  intro h hmem
  rcases bmGo_sound b p (bmTable p) b.length 0 h hmem with ⟨sh, heq, _, hlt, hin⟩
  rw [naiveHits_mem]
  refine ⟨sh, hlt, ?_, heq⟩
  have hsn : sh + p.length ≤ b.length := by omega
  exact (window_eq_iff hsn).mpr ((bmInner_neg_one_iff b p sh).mp hin)

theorem pairwise_start_filterMap {f : Nat → Option Hit} {l : List Nat}
    (hl : l.Pairwise fun x y => x < y)
    (hf : ∀ i j, i < j → ∀ x ∈ f i, ∀ y ∈ f j, x.start < y.start) :
    (l.filterMap f).Pairwise fun a c => a.start < c.start := by
  rw [List.pairwise_filterMap]
  exact hl.imp fun h => hf _ _ h

theorem naiveHits_chain (b p : Str) :
    ((Naive b p).hits).Chain' fun a c => a.start < c.start := by
  refine List.Pairwise.chain' ?_
  show (naiveHits b p).Pairwise _
  rw [naiveHits]
  refine pairwise_start_filterMap (List.pairwise_lt_range _) ?_
  intro i j hij x hx y hy
  by_cases hi : (b.drop i).take p.length = p
  · rw [if_pos hi, Option.mem_def, Option.some_inj] at hx
    by_cases hj : (b.drop j).take p.length = p
    · rw [if_pos hj, Option.mem_def, Option.some_inj] at hy
      rw [← hx, ← hy]
      show (i : Int) < (j : Int)
      exact_mod_cast hij
    · rw [if_neg hj] at hy
      exact absurd hy (Option.not_mem_none y)
  · rw [if_neg hi] at hx
    exact absurd hx (Option.not_mem_none x)

theorem rkHits_chain (b p : Str) :
    ((RabinKarp b p).hits).Chain' fun a c => a.start < c.start := by
  refine List.Pairwise.chain' ?_
  rw [rkHits_eq]
  refine pairwise_start_filterMap (List.pairwise_lt_range' 0 _ 1 (by norm_num)) ?_
  intro i j hij x hx y hy
  by_cases hi : windowHash b p.length i = polyHash p
  · rw [if_pos hi, Option.mem_def, Option.some_inj] at hx
    by_cases hj : windowHash b p.length j = polyHash p
    · rw [if_pos hj, Option.mem_def, Option.some_inj] at hy
      rw [← hx, ← hy]
      show (i : Int) < (j : Int)
      exact_mod_cast hij
    · rw [if_neg hj] at hy
      exact absurd hy (Option.not_mem_none y)
  · rw [if_neg hi] at hx
    exact absurd hx (Option.not_mem_none x)

theorem kmpHits_chain (b p : Str) :
    ((KnuthMorrisPratt b p).hits).Chain' fun a c => a.start < c.start := by
  refine List.Pairwise.chain' ?_
  show (kmpHits b p).Pairwise _
  rw [kmpHits]
  refine pairwise_start_filterMap (List.pairwise_lt_range' 1 _ 1 (by norm_num)) ?_
  intro i j hij x hx y hy
  by_cases hi : (pfUpTo (kmpComp b p) ((kmpComp b p).length - 1)).getD i 0 = p.length
  · rw [if_pos hi, Option.mem_def, Option.some_inj] at hx
    by_cases hj : (pfUpTo (kmpComp b p) ((kmpComp b p).length - 1)).getD j 0 = p.length
    · rw [if_pos hj, Option.mem_def, Option.some_inj] at hy
      rw [← hx, ← hy]
      show (i : Int) - 2 * p.length < (j : Int) - 2 * p.length
      have : (i : Int) < (j : Int) := by exact_mod_cast hij
      omega
    · rw [if_neg hj] at hy
      exact absurd hy (Option.not_mem_none y)
  · rw [if_neg hi] at hx
    exact absurd hx (Option.not_mem_none x)

theorem matchCtor_unsorted {b p : Str} {h : List Hit} {ind : Int} {res : Match}
    (hc : MatchCtor b p h false ind res) : res.hits = h := by
  rcases hc with ⟨_, _, _, _, h5⟩
  simpa using h5

theorem matchCtor_make (b p : Str) (h : List Hit) :
    MatchCtor b p h false 5 (Match.make b p h) :=
  ⟨rfl, rfl, rfl, rfl, by simp [Match.make]⟩

/-- What the standard guarantees about the sorted branch of the ctor. -/
theorem matchCtor_sorted_spec {b p : Str} {h : List Hit} {ind : Int} {res : Match}
    (hc : MatchCtor b p h true ind res) :
    res.hits.Perm h ∧ res.hits.Pairwise fun a c => c.accuracy ≤ a.accuracy := by
  rcases hc with ⟨_, _, _, _, h5⟩
  rw [if_pos rfl] at h5
  rcases h5 with ⟨hperm, hchain⟩
  refine ⟨hperm, ?_⟩
  have hch : res.hits.Chain' fun a c => c.accuracy ≤ a.accuracy :=
    hchain.imp fun a c hac => not_lt.mp hac
  haveI : IsTrans Hit fun a c => c.accuracy ≤ a.accuracy :=
    ⟨fun _ _ _ h1 h2 => le_trans h2 h1⟩
  exact (List.chain'_iff_pairwise).mp hch

/-- The polynomial hash written as the explicit sum `Σ value * pk^j`. -/
theorem polyHash_eq_sum (l : Str) :
    polyHash l = ∑ j ∈ Finset.range l.length, charVal (l.getD j dflt) * pk ^ j := by
  induction l with
  | nil => rfl
  | cons c t ih =>
    rw [polyHash, ih, List.length_cons, Finset.sum_range_succ']
    simp only [List.getD_cons_succ, List.getD_cons_zero, pow_zero, mul_one, pow_succ]
    rw [Finset.mul_sum]
    have : ∀ j ∈ Finset.range t.length,
        pk * (charVal (t.getD j dflt) * pk ^ j)
          = charVal (t.getD j dflt) * (pk ^ j * pk) := by
      intro j _
      ring
    rw [Finset.sum_congr rfl this]
    ring

/-- The sequence of values of the rolling accumulator `hb`: its value when
the window starts at `i`. -/
def rkHB (b : Str) (m : Nat) : Nat → Int
  | 0 => polyHash (b.take m)
  | i + 1 => rkSlide b m (rkHB b m i) i

/-- Invariant: within the loop range, `hb` is the hash of the current
window. -/
theorem rkHB_eq_windowHash (b : Str) (m : Nat) :
    ∀ i, i + m ≤ b.length → rkHB b m i = windowHash b m i := by
  intro i
  induction i with
  | zero =>
    intro _
    show polyHash (b.take m) = _
    rw [windowHash, List.drop_zero]
  | succ i ih =>
    intro hi
    show rkSlide b m (rkHB b m i) i = _
    rw [ih (by omega)]
    exact rkSlide_windowHash (by omega)

/-- On alphabet symbols the unreduced rolling hash has no collisions, so
`RabinKarp` records exactly `Naive`'s hits. -/
theorem naive_eq_rk (b p : Str) (hab : ∀ c ∈ b, c.toNat < sigma)
    (hap : ∀ c ∈ p, c.toNat < sigma) :
    (Naive b p).hits = (RabinKarp b p).hits := by
  rw [show (Naive b p).hits = naiveHits b p from rfl, rkHits_eq, naiveHits,
    List.range_eq_range']
  refine List.filterMap_congr ?_
  intro i hi
  rcases List.mem_range'_1.mp hi with ⟨_, h2⟩
  have himn : i + p.length ≤ b.length := by omega
  by_cases hw : (b.drop i).take p.length = p
  · rw [if_pos hw, if_pos (by rw [windowHash, hw])]
  · have hcond : ¬ windowHash b p.length i = polyHash p := by
      intro hh
      refine hw (polyHash_inj _ _ ?_ ?_ ?_ hh)
      · rw [List.length_take, List.length_drop]
        exact min_eq_left (by omega)
      · intro c hc
        have := hab c (List.mem_of_mem_drop (List.mem_of_mem_take hc))
        simpa [sigma] using this
      · intro c hc
        have := hap c hc
        simpa [sigma] using this
    rw [if_neg hw, if_neg hcond]

/-- Window hash in the explicit polynomial form of the specification. -/
theorem windowHash_eq_sum {b : Str} {m i : Nat} (h : i + m ≤ b.length) :
    windowHash b m i = ∑ j ∈ Finset.range m, charVal (b.getD (i + j) dflt) * pk ^ j := by
  rw [windowHash, polyHash_eq_sum]
  have hlen : ((b.drop i).take m).length = m := by
    rw [List.length_take, List.length_drop]
    exact min_eq_left (by omega)
  rw [hlen]
  refine Finset.sum_congr rfl ?_
  intro j hj
  rw [Finset.mem_range] at hj
  rw [getD_take hj (by rw [List.length_drop]; omega), getD_drop (by omega)]

/-! ## Claim theorems -/

/-- Claim C3 (confirmed): `Naive` records a hit at offset `i` exactly when
`i < n - m` and the window `base[i..i+m)` equals the pattern, and never at
the final candidate offset `n - m`, which the loop bound excludes. -/
theorem C3_naive_hits_characterisation (b p : Str) :
    (∀ h : Hit, h ∈ (Naive b p).hits ↔
      ∃ i : Nat, i < b.length - p.length ∧ (b.drop i).take p.length = p ∧
        h = ⟨(i : Int), (p.length : Int), 1⟩) ∧
    ∀ h ∈ (Naive b p).hits, h.start ≠ (b.length : Int) - (p.length : Int) := by
  refine ⟨naiveHits_mem b p, ?_⟩
  intro h hmem
  rcases (naiveHits_mem b p h).mp hmem with ⟨i, hi, _, heq⟩
  rw [heq]
  show (i : Int) ≠ _
  omega

/-- Witness for C3 at base `"abc"`, pattern `"b"`: the hit recorded at
offset `1` is a true occurrence below `n - m`. -/
theorem C3_witness :
    ∃ i : Nat, i < (['a','b','c'] : Str).length - (['b'] : Str).length ∧
      ((['a','b','c'] : Str).drop i).take (['b'] : Str).length = (['b'] : Str) ∧
      (⟨1, 1, 1⟩ : Hit) = ⟨(i : Int), ((['b'] : Str).length : Int), 1⟩ :=
  ((C3_naive_hits_characterisation ['a','b','c'] ['b']).1 ⟨1, 1, 1⟩).mp (by decide)

/-- Claim C2 (confirmed): under the preconditions, `KnuthMorrisPratt`
records a hit with start `i - 2*m` exactly at the composite positions `i`
where the failure function equals `m`, and the recorded start offsets are
exactly the occurrences `{ q | q + m <= n, base[q..q+m) = pattern }`,
including the final offset `n - m` when it matches. -/
theorem C2_kmp_occurrence_set (b p : Str) (hm : 0 < p.length)
    (hmn : p.length ≤ b.length) (hdp : delim ∉ p) (hdb : delim ∉ b) :
    (∀ h : Hit, h ∈ (KnuthMorrisPratt b p).hits ↔
      ∃ q : Nat, q + p.length ≤ b.length ∧ (b.drop q).take p.length = p ∧
        h = ⟨(q : Int), (p.length : Int), 1⟩) ∧
    (∀ i : Nat, 1 ≤ i → i < (kmpComp b p).length →
      (piFun (kmpComp b p) i = p.length ↔
        ∃ h ∈ (KnuthMorrisPratt b p).hits, h.start = (i : Int) - 2 * p.length)) ∧
    ((b.drop (b.length - p.length)).take p.length = p →
      ∃ h ∈ (KnuthMorrisPratt b p).hits,
        h.start = (b.length : Int) - (p.length : Int)) := by
  refine ⟨kmpHits_mem hdp hdb hm, ?_, ?_⟩
  · intro i h1 hilt
    constructor
    · intro hpf
      rcases (piFun_eq_m_iff hdp hdb hm hilt).mp hpf with ⟨q, hiq, hqn, hwin⟩
      refine ⟨⟨(q : Int), (p.length : Int), 1⟩,
        (kmpHits_mem hdp hdb hm _).mpr ⟨q, hqn, hwin, rfl⟩, ?_⟩
      show (q : Int) = (i : Int) - 2 * p.length
      omega
    · rintro ⟨h, hmem, hstart⟩
      rcases (kmpHits_mem hdp hdb hm h).mp hmem with ⟨q, hqn, hwin, heq⟩
      rw [heq] at hstart
      have hiq : i = 2 * p.length + q := by
        have : (q : Int) = (i : Int) - 2 * p.length := hstart
        omega
      exact (piFun_eq_m_iff hdp hdb hm hilt).mpr ⟨q, hiq, hqn, hwin⟩
  · intro hwin
    refine ⟨⟨((b.length - p.length : Nat) : Int), (p.length : Int), 1⟩,
      (kmpHits_mem hdp hdb hm _).mpr ⟨b.length - p.length, by omega, hwin, rfl⟩, ?_⟩
    show ((b.length - p.length : Nat) : Int) = _
    omega

/-- Witness for C2 at base `"ab"`, pattern `"b"`: the final offset
`n - m = 1` matches and is reported. -/
theorem C2_witness :
    ∃ h ∈ (KnuthMorrisPratt ['a','b'] ['b']).hits,
      h.start = ((['a','b'] : Str).length : Int) - ((['b'] : Str).length : Int) :=
  (C2_kmp_occurrence_set ['a','b'] ['b'] (by decide) (by decide) (by decide)
    (by decide)).2.2 (by decide)

/-- Counterexample to claim C1 as stated: on base `"aabaaa"`, pattern
`"abaa"` (preconditions satisfied), `Naive` finds the occurrence at offset
`1` but the bad-character shift makes `BoyerMoore` skip it entirely, so
the three exact algorithms do not return identical start-offset sets. -/
theorem C1_counterexample :
    0 < (['a','b','a','a'] : Str).length ∧
    (['a','b','a','a'] : Str).length ≤ (['a','a','b','a','a','a'] : Str).length ∧
    delim ∉ (['a','a','b','a','a','a'] : Str) ∧
    delim ∉ (['a','b','a','a'] : Str) ∧
    (Naive ['a','a','b','a','a','a'] ['a','b','a','a']).hits.map Hit.start = [1] ∧
    (BoyerMoore ['a','a','b','a','a','a'] ['a','b','a','a']).hits.map Hit.start = [] := by
  decide

/-- Claim C1 as amended: under the preconditions (and symbols drawn from
the declared alphabet) `Naive` and `RabinKarp` return identical hit lists
(the unreduced hash is collision-free, so the superset is an equality);
`BoyerMoore`'s hits are a subset of `Naive`'s (its bad-character shift may
skip occurrences); and `KnuthMorrisPratt`'s hits are exactly `Naive`'s
plus the final offset `n - m` whenever the pattern matches there. -/
theorem C1_agreement_amended (b p : Str) (hm : 0 < p.length)
    (hmn : p.length ≤ b.length) (hdp : delim ∉ p) (hdb : delim ∉ b)
    (hab : ∀ c ∈ b, c.toNat < sigma) (hap : ∀ c ∈ p, c.toNat < sigma) :
    (Naive b p).hits = (RabinKarp b p).hits ∧
    (∀ h ∈ (BoyerMoore b p).hits, h ∈ (Naive b p).hits) ∧
    (∀ h : Hit, h ∈ (KnuthMorrisPratt b p).hits ↔
      (h ∈ (Naive b p).hits ∨
        ((b.drop (b.length - p.length)).take p.length = p ∧
          h = ⟨((b.length - p.length : Nat) : Int), (p.length : Int), 1⟩))) := by
  refine ⟨naive_eq_rk b p hab hap, bmHits_subset_naive b p, ?_⟩
  intro h
  rw [kmpHits_mem hdp hdb hm, naiveHits_mem]
  constructor
  · rintro ⟨q, hq, hwin, heq⟩
    rcases Nat.lt_or_ge q (b.length - p.length) with hlt | hge
    · exact Or.inl ⟨q, hlt, hwin, heq⟩
    · have hqe : q = b.length - p.length := by omega
      rw [hqe] at hwin heq
      exact Or.inr ⟨hwin, heq⟩
  · rintro (⟨i, hi, hwin, heq⟩ | ⟨hwin, heq⟩)
    · exact ⟨i, by omega, hwin, heq⟩
    · exact ⟨b.length - p.length, by omega, hwin, heq⟩

/-- Witness for the amended C1 at base `"aabaaa"`, pattern `"abaa"`. -/
theorem C1_witness :
    (Naive ['a','a','b','a','a','a'] ['a','b','a','a']).hits
      = (RabinKarp ['a','a','b','a','a','a'] ['a','b','a','a']).hits :=
  (C1_agreement_amended ['a','a','b','a','a','a'] ['a','b','a','a'] (by decide)
    (by decide) (by decide) (by decide) (by decide) (by decide)).1

/-- Counterexample to claim C4 as stated: on base `"aaaa"`, pattern `"aa"`
the occurrence at offset `2 = n - m` is reported by `KnuthMorrisPratt` but
not by `Naive`, so not all four algorithms return hits at 0, 1 and 2. -/
theorem C4_counterexample :
    (2 : Int) ∈ (KnuthMorrisPratt ['a','a','a','a'] ['a','a']).hits.map Hit.start ∧
    (2 : Int) ∉ (Naive ['a','a','a','a'] ['a','a']).hits.map Hit.start := by
  decide

/-- Claim C4 as amended: on base `"aaaa"`, pattern `"aa"`, `Naive` and
`RabinKarp` return hits exactly at offsets 0 and 1 (the loop bound `n - m`
excludes offset 2); `KnuthMorrisPratt` returns exactly 0, 1, 2;
`BoyerMoore` records the hit at 0 and then reads `base[-1]` out of bounds
(in the model the read yields the delimiter, whose table entry is `m`,
after which the loop exits, so `BoyerMoore` returns exactly the hit at 0). -/
theorem C4_overlap_amended :
    (Naive ['a','a','a','a'] ['a','a']).hits.map Hit.start = [0, 1] ∧
    (RabinKarp ['a','a','a','a'] ['a','a']).hits.map Hit.start = [0, 1] ∧
    (KnuthMorrisPratt ['a','a','a','a'] ['a','a']).hits.map Hit.start = [0, 1, 2] ∧
    (BoyerMoore ['a','a','a','a'] ['a','a']).hits.map Hit.start = [0] ∧
    BoyerMooreOOB ['a','a','a','a'] ['a','a'] = true := by
  decide

/-- Claim C5 (confirmed): throughout the loop range the maintained rolling
value equals the polynomial hash `Σ base[i+j] * pk^j` of the current
window, and a hit is recorded at offset `i` exactly when that value equals
the pattern hash — no character comparison is involved. -/
theorem C5_rolling_hash_invariant (b p : Str) (hm : 0 < p.length)
    (hmn : p.length ≤ b.length) :
    (∀ i : Nat, i < b.length - p.length →
      rkHB b p.length i
        = ∑ j ∈ Finset.range p.length, charVal (b.getD (i + j) dflt) * pk ^ j) ∧
    (∀ h : Hit, h ∈ (RabinKarp b p).hits ↔
      ∃ i : Nat, i < b.length - p.length ∧ rkHB b p.length i = polyHash p ∧
        h = ⟨(i : Int), (p.length : Int), 1⟩) := by
  have hhb : ∀ i : Nat, i < b.length - p.length →
      rkHB b p.length i = windowHash b p.length i := by
    intro i hi
    exact rkHB_eq_windowHash b p.length i (by omega)
  constructor
  · intro i hi
    rw [hhb i hi, windowHash_eq_sum (by omega)]
  · intro h
    rw [rkHits_mem]
    constructor
    · rintro ⟨i, hi, hw, heq⟩
      exact ⟨i, hi, by rw [hhb i hi, hw], heq⟩
    · rintro ⟨i, hi, hw, heq⟩
      exact ⟨i, hi, by rw [← hhb i hi, hw], heq⟩

/-- Witness for C5 at base `"aaaa"`, pattern `"aa"`, window index `1`. -/
theorem C5_witness :
    rkHB ['a','a','a','a'] (['a','a'] : Str).length 1
      = ∑ j ∈ Finset.range (['a','a'] : Str).length,
          charVal ((['a','a','a','a'] : Str).getD (1 + j) dflt) * pk ^ j :=
  (C5_rolling_hash_invariant ['a','a','a','a'] ['a','a'] (by decide)
    (by decide)).1 1 (by decide)

/-- Claim C6 (confirmed): the preprocessed table maps every symbol absent
from `pattern[0..m-2]` to `m` and every other symbol to `m - 1 - j` for
`j` its rightmost occurrence excluding the final pattern position; the
shift advance on a stopped comparison is the table value, or `1` when that
value is not positive, and is always at least `1`. -/
theorem C6_bad_char_table (p : Str) :
    (∀ c : Char, c ∉ p.take (p.length - 1) → bmTable p c = (p.length : Int)) ∧
    (∀ c : Char, c ∈ p.take (p.length - 1) →
      ∃ j, j < p.length - 1 ∧ p.getD j dflt = c ∧
        (∀ t, j < t → t < p.length - 1 → p.getD t dflt ≠ c) ∧
        bmTable p c = (p.length : Int) - 1 - (j : Int)) ∧
    (∀ c : Char, bmAdvance (bmTable p) c
        = (if bmTable p c > 0 then bmTable p c else 1) ∧
      1 ≤ bmAdvance (bmTable p) c) := by
  refine ⟨?_, ?_, ?_⟩
  · intro c hnot
    refine (bmTable_aux p (p.length - 1) c).1 ?_
    intro j hj heq
    exact hnot (mem_take_iff.mpr ⟨j, hj, by omega, heq⟩)
  · intro c hc
    rcases mem_take_iff.mp hc with ⟨j0, hj0k, _, hget⟩
    rcases exists_rightmost (P := fun j => p.getD j dflt = c) (p.length - 1)
        ⟨j0, hj0k, hget⟩ with ⟨j, hj, hP, hlast⟩
    exact ⟨j, hj, hP, hlast, (bmTable_aux p (p.length - 1) c).2 j hj hP hlast⟩
  · intro c
    constructor
    · rw [bmAdvance]
      rcases lt_trichotomy (bmTable p c) 1 with h1 | h1 | h1
      · rw [if_neg (by omega), if_neg (by omega)]
      · rw [if_neg (by omega), if_pos (by omega), h1]
      · rw [if_pos h1, if_pos (by omega)]
    · exact bmAdvance_pos (bmTable p) c

/-- Witness for C6 at pattern `"aba"` and symbol `'a'`: the rightmost
non-final occurrence of `'a'` is at index 0, giving shift `3 - 1 - 0 = 2`. -/
theorem C6_witness :
    ∃ j, j < (['a','b','a'] : Str).length - 1 ∧
      (['a','b','a'] : Str).getD j dflt = 'a' ∧
      (∀ t, j < t → t < (['a','b','a'] : Str).length - 1 →
        (['a','b','a'] : Str).getD t dflt ≠ 'a') ∧
      bmTable ['a','b','a'] 'a' = ((['a','b','a'] : Str).length : Int) - 1 - (j : Int) :=
  (C6_bad_char_table ['a','b','a']).2.1 'a' (by decide)

/-- Counterexample to claim C7 as stated: with base `"aa"` and pattern
`"aa"` the pattern matches at offset 0, but `m = n` keeps the window loop
from ever running, so no out-of-bounds read happens. -/
theorem C7_counterexample :
    (['a','a'] : Str).take (['a','a'] : Str).length = (['a','a'] : Str) ∧
    BoyerMooreOOB ['a','a'] ['a','a'] = false := by
  decide

/-- Claim C7 as amended: for every input with `m < n` whose pattern
matches at offset 0, the full right-to-left match in the first window
makes the bad-character lookup read `base[-1]`, outside the sequence. -/
theorem C7_bm_reads_before_base (b p : Str) (hmn : p.length < b.length)
    (hmatch : b.take p.length = p) : BoyerMooreOOB b p = true := by
  refine bmGo_oob_of_match b p (bmTable p) hmn ?_ b.length (by omega)
  rw [bmInner_neg_one_iff]
  intro t ht
  have hw : (b.drop 0).take p.length = p := by
    rw [List.drop_zero]
    exact hmatch
  have := (window_eq_iff (by omega)).mp hw
  exact this t ht

/-- Witness for the amended C7 at base `"aab"`, pattern `"aa"`. -/
theorem C7_witness : BoyerMooreOOB ['a','a','b'] ['a','a'] = true :=
  C7_bm_reads_before_base ['a','a','b'] ['a','a'] (by decide) (by decide)

/-- Claim C8 (confirmed): for each of the four algorithms, every recorded
hit satisfies `0 <= start` and `start + length <= n`. -/
theorem C8_hits_within_base (b p : Str) (hm : 0 < p.length)
    (hmn : p.length ≤ b.length) (hdp : delim ∉ p) (hdb : delim ∉ b) :
    ∀ res ∈ [Naive b p, RabinKarp b p, KnuthMorrisPratt b p, BoyerMoore b p],
      ∀ h ∈ res.hits, 0 ≤ h.start ∧ h.start + h.length ≤ (b.length : Int) := by
  have hnaive : ∀ h ∈ (Naive b p).hits,
      0 ≤ h.start ∧ h.start + h.length ≤ (b.length : Int) := by
    intro h hh
    rcases (naiveHits_mem b p h).mp hh with ⟨i, hi, _, heq⟩
    rw [heq]
    constructor
    · exact Int.natCast_nonneg i
    · show (i : Int) + (p.length : Int) ≤ _
      omega
  intro res hres
  simp only [List.mem_cons, List.not_mem_nil, or_false] at hres
  rcases hres with h1 | h2 | h3 | h4
  · rw [h1]
    exact hnaive
  · rw [h2]
    intro h hh
    rcases (rkHits_mem b p h).mp hh with ⟨i, hi, _, heq⟩
    rw [heq]
    constructor
    · exact Int.natCast_nonneg i
    · show (i : Int) + (p.length : Int) ≤ _
      omega
  · rw [h3]
    intro h hh
    rcases (kmpHits_mem hdp hdb hm h).mp hh with ⟨q, hq, _, heq⟩
    rw [heq]
    constructor
    · exact Int.natCast_nonneg q
    · show (q : Int) + (p.length : Int) ≤ _
      omega
  · rw [h4]
    intro h hh
    exact hnaive h (bmHits_subset_naive b p h hh)

/-- Witness for C8 at base `"abc"`, pattern `"b"` and `Naive`'s hit. -/
theorem C8_witness :
    0 ≤ (⟨1, 1, 1⟩ : Hit).start ∧
      (⟨1, 1, 1⟩ : Hit).start + (⟨1, 1, 1⟩ : Hit).length
        ≤ ((['a','b','c'] : Str).length : Int) :=
  C8_hits_within_base ['a','b','c'] ['b'] (by decide) (by decide) (by decide)
    (by decide) (Naive ['a','b','c'] ['b']) (by decide) ⟨1, 1, 1⟩ (by decide)

/-- Counterexample to claim C9 as stated: with the sort flag set, storing
the two equal-accuracy hits in swapped order satisfies everything the
constructor's `std::sort` call guarantees, so the stored list need not
keep the input's relative order (the all-equal-accuracy case in
particular). -/
theorem C9_counterexample :
    MatchCtor ['a'] ['a'] [⟨0, 1, 1⟩, ⟨1, 1, 1⟩] true 5
      ⟨['a'], ['a'], 5, true, [⟨1, 1, 1⟩, ⟨0, 1, 1⟩]⟩ ∧
    ([⟨1, 1, 1⟩, ⟨0, 1, 1⟩] : List Hit) ≠ [⟨0, 1, 1⟩, ⟨1, 1, 1⟩] := by
  constructor
  · refine ⟨rfl, rfl, rfl, rfl, ?_⟩
    rw [if_pos rfl]
    refine ⟨by decide, ?_⟩
    show List.Chain' (fun a c => ¬ c.accuracy > a.accuracy)
      [(⟨1, 1, 1⟩ : Hit), ⟨0, 1, 1⟩]
    rw [List.chain'_cons]
    exact ⟨lt_irrefl 1, List.chain'_singleton _⟩
  · decide

/-- Claim C9 as amended: with the sort flag set the stored hit list is a
permutation of the input ordered by non-increasing accuracy; the relative
order of equal-accuracy hits is not specified (`std::sort` is not a stable
sort), so an all-equal-accuracy list may be stored in any order. -/
theorem C9_sort_guarantee (b p : Str) (h : List Hit) (ind : Int) (res : Match)
    (hc : MatchCtor b p h true ind res) :
    res.hits.Perm h ∧ res.hits.Pairwise fun a c => c.accuracy ≤ a.accuracy :=
  matchCtor_sorted_spec hc

/-- Witness for the amended C9 on a two-hit list with equal accuracies. -/
theorem C9_witness :
    ([⟨1, 1, 1⟩, ⟨0, 1, 1⟩] : List Hit).Perm [⟨0, 1, 1⟩, ⟨1, 1, 1⟩] ∧
    ([⟨1, 1, 1⟩, ⟨0, 1, 1⟩] : List Hit).Pairwise
      (fun a c => c.accuracy ≤ a.accuracy) :=
  C9_sort_guarantee ['a'] ['a'] [⟨0, 1, 1⟩, ⟨1, 1, 1⟩] 5
    ⟨['a'], ['a'], 5, true, [⟨1, 1, 1⟩, ⟨0, 1, 1⟩]⟩
    ⟨rfl, rfl, rfl, rfl, by
      rw [if_pos rfl]
      refine ⟨by decide, ?_⟩
      show List.Chain' (fun a c => ¬ c.accuracy > a.accuracy)
        [(⟨1, 1, 1⟩ : Hit), ⟨0, 1, 1⟩]
      rw [List.chain'_cons]
      exact ⟨lt_irrefl 1, List.chain'_singleton _⟩⟩

/-- Claim C10 (confirmed): with the sort flag unset the constructor stores
exactly the discovered hit list, and each of the four algorithms discovers
hits in strictly increasing start-offset order. -/
theorem C10_discovery_order :
    (∀ b p : Str, ∀ h : List Hit, ∀ ind : Int, ∀ res : Match,
      MatchCtor b p h false ind res → res.hits = h) ∧
    ∀ b p : Str,
      (Naive b p).hits.Chain' (fun a c => a.start < c.start) ∧
      (RabinKarp b p).hits.Chain' (fun a c => a.start < c.start) ∧
      (KnuthMorrisPratt b p).hits.Chain' (fun a c => a.start < c.start) ∧
      (BoyerMoore b p).hits.Chain' (fun a c => a.start < c.start) := by
  refine ⟨fun b p h ind res hc => matchCtor_unsorted hc, fun b p => ?_⟩
  refine ⟨naiveHits_chain b p, rkHits_chain b p, kmpHits_chain b p, ?_⟩
  exact bmGo_chain b p (bmTable p) b.length 0

/-- Witness for C10: the unsorted constructor stores the list unchanged. -/
theorem C10_witness : (Match.make ['a'] ['a'] []).hits = ([] : List Hit) :=
  C10_discovery_order.1 ['a'] ['a'] [] 5 (Match.make ['a'] ['a'] [])
    (matchCtor_make ['a'] ['a'] [])
